import Mathlib

/-!
Verification of the aggregation / pagination pipeline of build.py
(flickr-archive).  The Python source is shallowly embedded: Python dicts
become association lists in insertion order (Python dict keys are unique;
insertion order is the reference order used throughout), per-photo JSON
records become a structure with optional fields, and the regex matching of
the image locator is embedded as explicit scanners over character lists.
-/

/-- Association-list lookup, embedding Python dict membership / indexing
(d[k] and `k in d`).  Keys in all embedded dicts are unique. -/
def dictGet {K V : Type} [DecidableEq K] : List (K × V) → K → Option V
  | [], _ => none
  | p :: ps, k => if p.1 = k then some p.2 else dictGet ps k

/-- Association-list assignment, embedding Python dict assignment d[k] = v:
replaces the value at the (unique) occurrence of k, or appends a new binding. -/
def dictSet {K V : Type} [DecidableEq K] : List (K × V) → K → V → List (K × V)
  | [], k, v => [(k, v)]
  | p :: ps, k, v => if p.1 = k then (k, v) :: ps else p :: dictSet ps k v

theorem dictGet_append {K V : Type} [DecidableEq K] (l1 l2 : List (K × V)) (k : K) :
    dictGet (l1 ++ l2) k =
      match dictGet l1 k with
      | some v => some v
      | none => dictGet l2 k := by
  induction l1 with
  | nil => simp [dictGet]
  | cons p ps ih =>
    by_cases h : p.1 = k <;> simp [dictGet, h, ih]

theorem dictGet_isSome_iff {K V : Type} [DecidableEq K] (m : List (K × V)) (k : K) :
    (dictGet m k).isSome = true ↔ k ∈ m.map Prod.fst := by
  induction m with
  | nil => simp [dictGet]
  | cons p ps ih =>
    by_cases h : p.1 = k <;> simp [dictGet, h, ih]
    exact fun hk => (h hk.symm).elim

theorem dictGet_eq_none_iff {K V : Type} [DecidableEq K] (m : List (K × V)) (k : K) :
    dictGet m k = none ↔ k ∉ m.map Prod.fst := by
  rw [← dictGet_isSome_iff]
  cases dictGet m k <;> simp

theorem dictGet_mem {K V : Type} [DecidableEq K] {m : List (K × V)} {k : K} {v : V}
    (h : dictGet m k = some v) : (k, v) ∈ m := by
  induction m with
  | nil => simp [dictGet] at h
  | cons p ps ih =>
    simp only [dictGet] at h
    by_cases hp : p.1 = k
    · rw [if_pos hp] at h
      cases h
      have hkp : (k, p.2) = p := by rw [← hp]
      rw [hkp]
      exact List.mem_cons_self _ _
    · rw [if_neg hp] at h
      exact List.mem_cons_of_mem _ (ih h)

theorem dictGet_dictSet_self {K V : Type} [DecidableEq K] (m : List (K × V)) (k : K) (v : V) :
    dictGet (dictSet m k v) k = some v := by
  induction m with
  | nil => simp [dictGet, dictSet]
  | cons p ps ih =>
    by_cases h : p.1 = k <;> simp [dictGet, dictSet, h, ih]

theorem dictGet_dictSet_other {K V : Type} [DecidableEq K] (m : List (K × V)) (k k' : K) (v : V)
    (hne : k' ≠ k) : dictGet (dictSet m k v) k' = dictGet m k' := by
  induction m with
  | nil =>
    simp only [dictSet, dictGet]
    rw [if_neg (fun h => hne h.symm)]
  | cons p ps ih =>
    simp only [dictSet, dictGet]
    by_cases h : p.1 = k
    · have hp : ¬ p.1 = k' := by
        rw [h]
        exact fun hk => hne hk.symm
      rw [if_pos h]
      simp only [dictGet]
      rw [if_neg (fun hk => hne hk.symm), if_neg hp]
    · rw [if_neg h]
      simp only [dictGet]
      by_cases h2 : p.1 = k' <;> simp [h2, ih]

theorem mem_dictSet {K V : Type} [DecidableEq K] {m : List (K × V)} {k : K} {v : V} {p : K × V}
    (h : p ∈ dictSet m k v) : p = (k, v) ∨ p ∈ m := by
  induction m with
  | nil =>
    simp only [dictSet, List.mem_singleton] at h
    exact Or.inl h
  | cons q ps ih =>
    simp only [dictSet] at h
    by_cases hq : q.1 = k
    · rw [if_pos hq] at h
      rcases List.mem_cons.mp h with h1 | h1
      · exact Or.inl h1
      · exact Or.inr (List.mem_cons_of_mem _ h1)
    · rw [if_neg hq] at h
      rcases List.mem_cons.mp h with h1 | h1
      · exact Or.inr (h1 ▸ List.mem_cons_self _ _)
      · rcases ih h1 with h2 | h2
        · exact Or.inl h2
        · exact Or.inr (List.mem_cons_of_mem _ h2)

theorem keys_dictSet_of_mem {K V : Type} [DecidableEq K] (m : List (K × V)) (k : K) (v : V)
    (h : k ∈ m.map Prod.fst) :
    (dictSet m k v).map Prod.fst = m.map Prod.fst := by
  induction m with
  | nil => simp at h
  | cons p ps ih =>
    by_cases hp : p.1 = k
    · simp [dictSet, hp]
    · simp only [List.map_cons, List.mem_cons] at h
      rcases h with h | h
      · exact absurd h.symm hp
      · simp [dictSet, hp, ih h]

/-- Embedding of int(math.ceil(L / N)) with true division, for N > 0. -/
def pyCeilDiv (l n : Nat) : Nat := (l + n - 1) / n

/-- Embedding of Python range(a, b) as a list. -/
def pyRange (a b : Nat) : List Nat := List.range' a (b - a)

theorem char_toNat_ofNat (n : Nat) (h : n.isValidChar) : (Char.ofNat n).toNat = n := by
  simp only [Char.ofNat, h, dif_pos]
  rfl

theorem char_toLower_idem (c : Char) : c.toLower.toLower = c.toLower := by
  have h1 : ∀ d : Char, d.toLower =
      if d.toNat ≥ 65 ∧ d.toNat ≤ 90 then Char.ofNat (d.toNat + 32) else d := fun _ => rfl
  by_cases h : c.toNat ≥ 65 ∧ c.toNat ≤ 90
  · rw [h1 c, if_pos h, h1, char_toNat_ofNat _ (Or.inl (by omega)), if_neg (by omega)]
  · rw [h1 c, if_neg h, h1 c, if_neg h]

/-- Embedding of Python str.lower() as used by _combine_tags (character-wise
lowering, as in Lean core's Char.toLower). -/
def pyLower (s : String) : String := String.mk (s.data.map Char.toLower)

theorem pyLower_idem (s : String) : pyLower (pyLower s) = pyLower s := by
  simp only [pyLower, List.map_map]
  congr 1
  exact List.map_congr_left fun c _ => char_toLower_idem c

/-- Longest leading run of ASCII digits of a character list, with the rest;
embeds the greedy matching of a regex digit group. -/
def digitRun : List Char → List Char × List Char
  | [] => ([], [])
  | c :: cs =>
    if c.isDigit then
      let p := digitRun cs
      (c :: p.1, p.2)
    else ([], c :: cs)

/-- Embedding of re.search of the pattern caret-open-digits-close-underscore
(regexA of _create_image_map): matches when the filename starts with at least
one digit and the character right after the maximal digit run is an
underscore; the group is that digit run. -/
def matchA (s : List Char) : Option (List Char) :=
  let p := digitRun s
  match p.1, p.2 with
  | [], _ => none
  | r, '_' :: _ => some r
  | _, _ => none

/-- Embedding of re.search of the pattern underscore-digits-underscore-o
(regexB of _create_image_map): leftmost occurrence of an underscore followed
by a maximal nonempty digit run followed by underscore and the letter o. -/
def findB : List Char → Option (List Char)
  | [] => none
  | c :: cs =>
    if c = '_' then
      let p := digitRun cs
      match p.1, p.2 with
      | r :: rs, '_' :: 'o' :: _ => some (r :: rs)
      | _, _ => findB cs
    else findB cs

/-- Embedding of re.search of the pattern underscore-digits-dot
(regexC of _create_image_map): leftmost occurrence of an underscore followed
by a maximal nonempty digit run followed by a literal dot. -/
def findC : List Char → Option (List Char)
  | [] => none
  | c :: cs =>
    if c = '_' then
      let p := digitRun cs
      match p.1, p.2 with
      | r :: rs, '.' :: _ => some (r :: rs)
      | _, _ => findC cs
    else findC cs

/-- Warning message logged by _create_image_map when no pattern matches. -/
def imgWarnMsg (image : String) : String :=
  "Can't get id for images/" ++ image ++ ", skpping ..."

/-- Processing of one filename in _create_image_map: all three regexes are
applied in order; every match assigns map[id] = image; a filename with no
match is logged as skipped. -/
def processImage (acc : List (String × String) × List String) (image : String) :
    List (String × String) × List String :=
  let s := image.data
  let m0 := acc.1
  let r1 := match matchA s with
    | some r => (dictSet m0 (String.mk r) image, true)
    | none => (m0, false)
  let r2 := match findB s with
    | some r => (dictSet r1.1 (String.mk r) image, true)
    | none => r1
  let r3 := match findC s with
    | some r => (dictSet r2.1 (String.mk r) image, true)
    | none => r2
  if r3.2 then (r3.1, acc.2) else (r3.1, acc.2 ++ [imgWarnMsg image])

/-- Embedding of _create_image_map: folds the image directory listing into an
id-to-filename map plus the list of logged skip warnings. -/
def create_image_map (images : List String) : List (String × String) × List String :=
  images.foldl processImage ([], [])

/-- Photo ids produced from one filename: the groups of the three patterns
that match, in pattern order. -/
def idsOf (image : String) : List String :=
  ((matchA image.data).toList ++ (findB image.data).toList ++
    (findC image.data).toList).map String.mk

theorem processImage_snd (a : List (String × String) × List String) (i : String) :
    (processImage a i).2 =
      if (idsOf i).isEmpty then a.2 ++ [imgWarnMsg i] else a.2 := by
  rcases hA : matchA i.data with _ | rA <;>
    rcases hB : findB i.data with _ | rB <;>
      rcases hC : findC i.data with _ | rC <;>
        simp [processImage, idsOf, hA, hB, hC]

theorem processImage_fst (a : List (String × String) × List String) (i : String) :
    (processImage a i).1 =
      (idsOf i).foldl (fun m id => dictSet m id i) a.1 := by
  rcases hA : matchA i.data with _ | rA <;>
    rcases hB : findB i.data with _ | rB <;>
      rcases hC : findC i.data with _ | rC <;>
        simp [processImage, idsOf, hA, hB, hC]

theorem create_image_map_warns_aux (images : List String)
    (a : List (String × String) × List String) :
    (images.foldl processImage a).2 =
      a.2 ++ (images.filter (fun i => (idsOf i).isEmpty)).map imgWarnMsg := by
  induction images generalizing a with
  | nil => simp
  | cons i is ih =>
    rw [List.foldl_cons, ih]
    by_cases h : (idsOf i).isEmpty <;>
      simp [processImage_snd, h, List.filter_cons]

/-- C2: the Image Locator tries the three filename-pattern families in order,
but every matching pattern (not only the first) assigns map[id] = filename:
the counterexample filename 123_foo_456_o.jpg is matched by the leading-id
pattern with id 123, yet the produced map holds a second binding 456 coming
from the later id-before-_o-suffix pattern, so the first matching pattern
does not determine a single photo-id mapping. -/
theorem c2_counterexample :
    matchA ("123_foo_456_o.jpg").data = some ("123".data) ∧
    (create_image_map ["123_foo_456_o.jpg"]).1 =
      [("123", "123_foo_456_o.jpg"), ("456", "123_foo_456_o.jpg")] ∧
    dictGet (create_image_map ["123_foo_456_o.jpg"]).1 "456" =
      some "123_foo_456_o.jpg" := by
  decide

/-- C2 (amended): for every image filename the three filename-pattern
families are tried in order and every pattern that matches contributes a
mapping id to filename (later matches overwriting an equal id); a filename
matching none of the three patterns is skipped with a logged warning and
does not abort the run (the warnings are exactly the non-matching
filenames); and filename 131099312_fresh-crop.jpg resolves to photo-id
131099312 via the leading-id pattern, the only pattern that matches it. -/
theorem c2_image_map_patterns :
    (∀ images : List String,
      (create_image_map images).2 =
        (images.filter (fun i => (idsOf i).isEmpty)).map imgWarnMsg) ∧
    (∀ f : String,
      (create_image_map [f]).1 =
        (idsOf f).foldl (fun m id => dictSet m id f) []) ∧
    (matchA ("131099312_fresh-crop.jpg").data = some ("131099312".data) ∧
      findB ("131099312_fresh-crop.jpg").data = none ∧
      findC ("131099312_fresh-crop.jpg").data = none ∧
      create_image_map ["131099312_fresh-crop.jpg"] =
        ([("131099312", "131099312_fresh-crop.jpg")], [])) := by
  refine ⟨fun images => ?_, fun f => ?_, by decide⟩
  · exact create_image_map_warns_aux images ([], [])
  · rw [create_image_map, List.foldl_cons, List.foldl_nil]
    exact processImage_fst ([], []) f

/-- Per-photo JSON record as consumed by the index-building loop of
_create_images_html: each expected field may be absent (a Python KeyError on
access).  Only the five fields that drive the derived indexes are modelled;
tags are the tag strings of the record's tag objects. -/
structure PhotoJson where
  id : Option String
  tags : Option (List String)
  count_faves : Option Nat
  count_views : Option Nat
  count_comments : Option Nat
deriving DecidableEq, Repr

/-- Accessing a field of a loosely-typed JSON record: a missing field raises
a KeyError, embedded as an error value. -/
def getField {A : Type} (o : Option A) (fieldName : String) : Except String A :=
  match o with
  | some v => Except.ok v
  | none => Except.error ("KeyError: " ++ fieldName)

/-- The four derived indexes built by _create_images_html. -/
structure Indexes where
  tags : List (String × List String)
  favs : List (Nat × List String)
  views : List (Nat × List String)
  comments : List (Nat × List String)
deriving DecidableEq, Repr

/-- Embedding of d.setdefault(k, []) followed by d[k].append(v). -/
def dictAppend {K : Type} [DecidableEq K] (m : List (K × List String)) (k : K) (v : String) :
    List (K × List String) :=
  match dictGet m k with
  | none => m ++ [(k, [v])]
  | some l => dictSet m k (l ++ [v])

/-- Body of the per-record try block of _create_images_html: every expected
field is accessed (tags and id by the tag loop, the three counts by the
setdefault/append calls), and any missing field raises, which the except
clause of the source turns into logging.exception followed by exit(). -/
def processRecord (ix : Indexes) (r : PhotoJson) : Except String Indexes := do
  let tagList ← getField r.tags "tags"
  let id ← getField r.id "id"
  let cf ← getField r.count_faves "count_faves"
  let cv ← getField r.count_views "count_views"
  let cc ← getField r.count_comments "count_comments"
  Except.ok
    ⟨tagList.foldl (fun m tg => dictAppend m tg id) ix.tags,
      dictAppend ix.favs cf id,
      dictAppend ix.views cv id,
      dictAppend ix.comments cc id⟩

/-- Embedding of the index-building loop of _create_images_html: records are
processed in order; the first record whose field access raises aborts the
whole computation (logging.exception(e) followed by exit() in the source),
so no later record is processed and no cache file is written. -/
def create_images_html (records : List PhotoJson) : Except String Indexes :=
  records.foldlM processRecord ⟨[], [], [], []⟩

/-- A record is complete when every expected field is present. -/
def completeRec (r : PhotoJson) : Prop :=
  r.id.isSome = true ∧ r.tags.isSome = true ∧ r.count_faves.isSome = true ∧
    r.count_views.isSome = true ∧ r.count_comments.isSome = true

instance (r : PhotoJson) : Decidable (completeRec r) := by
  unfold completeRec
  infer_instance

theorem processRecord_isOk (ix : Indexes) (r : PhotoJson) :
    (processRecord ix r).isOk = true ↔ completeRec r := by
  rcases hid : r.id with _ | v1 <;> rcases htg : r.tags with _ | v2 <;>
    rcases hf : r.count_faves with _ | v3 <;> rcases hv : r.count_views with _ | v4 <;>
      rcases hc : r.count_comments with _ | v5 <;>
        simp [processRecord, getField, completeRec, hid, htg, hf, hv, hc,
          Except.isOk, Except.toBool, Except.bind] <;> rfl

theorem processRecord_eq_error {r : PhotoJson} (ix : Indexes) (h : ¬ completeRec r) :
    ∃ msg, processRecord ix r = Except.error msg := by
  rcases hpr : processRecord ix r with m | ix2
  · exact ⟨m, rfl⟩
  · exfalso
    apply h
    rw [← processRecord_isOk ix r, hpr]
    rfl

theorem create_images_isOk_aux (records : List PhotoJson) (ix : Indexes) :
    (records.foldlM processRecord ix).isOk = true ↔ ∀ r ∈ records, completeRec r := by
  induction records generalizing ix with
  | nil =>
    constructor
    · intro _ r hr
      simp at hr
    · intro _
      rfl
  | cons r rs ih =>
    rw [List.foldlM_cons]
    rcases hpr : processRecord ix r with m | ix2
    · have hr : ¬ completeRec r := by
        rw [← processRecord_isOk ix r, hpr]
        exact fun h => Bool.noConfusion h
      constructor
      · intro habs
        exact Bool.noConfusion habs
      · intro hall
        exact absurd (hall r (List.mem_cons_self r rs)) hr
    · have hr : completeRec r := by
        rw [← processRecord_isOk ix r, hpr]
        rfl
      have hbind : (Except.ok ix2 >>= fun s => List.foldlM processRecord s rs) =
          List.foldlM processRecord ix2 rs := rfl
      rw [hbind, ih ix2]
      constructor
      · intro hall r1 hr1
        rcases List.mem_cons.mp hr1 with h1 | h1
        · exact h1 ▸ hr
        · exact hall r1 h1
      · intro hall r1 hr1
        exact hall r1 (List.mem_cons_of_mem _ hr1)

theorem create_images_abort_aux (pre : List PhotoJson) (bad : PhotoJson) (post : List PhotoJson)
    (h : ¬ completeRec bad) (ix : Indexes) :
    (pre ++ bad :: post).foldlM processRecord ix = (pre ++ [bad]).foldlM processRecord ix := by
  induction pre generalizing ix with
  | nil =>
    simp only [List.nil_append, List.foldlM_cons]
    obtain ⟨m, hm⟩ := processRecord_eq_error ix h
    rw [hm]
    rfl
  | cons p ps ih =>
    simp only [List.cons_append, List.foldlM_cons]
    rcases hp : processRecord ix p with m | ix2
    · rfl
    · have hbind : ∀ l : List PhotoJson, (Except.ok ix2 >>= fun s => List.foldlM processRecord s l) =
          List.foldlM processRecord ix2 l := fun _ => rfl
      rw [hbind, hbind, ih ix2]

/-- Concrete records for the C1 counterexample: two complete records around
one record missing its count_views field. -/
def recComplete1 : PhotoJson := ⟨some "p1", some ["kids"], some 1, some 2, some 3⟩

/-- Record missing the expected count_views field. -/
def recBad : PhotoJson := ⟨some "p2", some ["kids"], some 1, none, some 3⟩

/-- A second complete record, placed after the bad one. -/
def recComplete2 : PhotoJson := ⟨some "p3", some ["cats"], some 0, some 0, some 0⟩

/-- C1 counterexample: a record missing an expected field (count_views) is
not skipped; the whole index-building run aborts with an error, so the
complete record after it is never processed and no indexes are produced,
contradicting the claimed non-fatal skip. -/
theorem c1_counterexample :
    create_images_html [recComplete1, recBad, recComplete2] =
      Except.error "KeyError: count_views" ∧
    (create_images_html [recComplete1, recBad, recComplete2]).isOk = false := by
  constructor
  · rfl
  · rfl

/-- C1 (amended): the index-building loop of _create_images_html succeeds
exactly when every record has all five expected fields; a record missing any
expected field makes the loop abort (logging.exception followed by exit() in
the source), the result does not depend on the records after the first
incomplete one (they are never processed), and the run does not complete. -/
theorem c1_missing_field_aborts :
    (∀ records : List PhotoJson,
      (create_images_html records).isOk = true ↔ ∀ r ∈ records, completeRec r) ∧
    (∀ (pre : List PhotoJson) (bad : PhotoJson) (post : List PhotoJson),
      ¬ completeRec bad →
        create_images_html (pre ++ bad :: post) = create_images_html (pre ++ [bad]) ∧
        (create_images_html (pre ++ bad :: post)).isOk = false) := by
  constructor
  · intro records
    exact create_images_isOk_aux records ⟨[], [], [], []⟩
  · intro pre bad post h
    constructor
    · exact create_images_abort_aux pre bad post h _
    · rw [Bool.eq_false_iff]
      intro habs
      have := (create_images_isOk_aux (pre ++ bad :: post) ⟨[], [], [], []⟩).mp habs
      exact absurd (this bad (by simp)) h

/-- C1 witness: the amended theorem applied at the concrete three-record
input with the incomplete record in the middle. -/
theorem c1_missing_field_aborts_witness :
    create_images_html ([recComplete1] ++ recBad :: [recComplete2]) =
      create_images_html ([recComplete1] ++ [recBad]) ∧
    (create_images_html ([recComplete1] ++ recBad :: [recComplete2])).isOk = false :=
  c1_missing_field_aborts.2 [recComplete1] recBad [recComplete2] (by decide)

/-- Admissible materialization of Python list(set(xs)): the output is
duplicate-free and holds exactly the elements of xs.  Python does not
specify the enumeration order of a set, so _combine_tags is embedded
relative to an arbitrary such function. -/
def SetList (f : List String → List String) : Prop :=
  ∀ xs : List String, (f xs).Nodup ∧ ∀ a : String, a ∈ f xs ↔ a ∈ xs

/-- One iteration of the loop of _combine_tags: the tag is lowercased; a tag
not yet in clean_tags is inserted with a copy of its list, otherwise the
lists are concatenated and passed through list(set(...)), embedded by f. -/
def combineStep (f : List String → List String) (acc : List (String × List String))
    (kv : String × List String) : List (String × List String) :=
  match dictGet acc (pyLower kv.1) with
  | none => acc ++ [(pyLower kv.1, kv.2)]
  | some old => dictSet acc (pyLower kv.1) (f (old ++ kv.2))

/-- Embedding of _combine_tags, parameterized by the set materialization f. -/
def combine_tags (f : List String → List String) (tags : List (String × List String)) :
    List (String × List String) :=
  tags.foldl (combineStep f) []

/-- Loop invariant of _combine_tags relating the accumulator clean_tags to
the already-processed prefix of the input: keys are lowercase and unique,
a key is present exactly when some processed tag lowers to it, its list
holds exactly the photo-ids of the matching processed tags, and it is
duplicate-free as soon as two or more processed tags lower to it. -/
def CombInv (acc processed : List (String × List String)) : Prop :=
  (∀ p ∈ acc, p.1 = pyLower p.1) ∧
  (acc.map Prod.fst).Nodup ∧
  (∀ k, (dictGet acc k).isSome = true ↔ ∃ e ∈ processed, pyLower e.1 = k) ∧
  (∀ k v, dictGet acc k = some v →
    ((∀ p, p ∈ v ↔ ∃ e ∈ processed, pyLower e.1 = k ∧ p ∈ e.2) ∧
      (2 ≤ processed.countP (fun e => decide (pyLower e.1 = k)) → v.Nodup)))

theorem exists_mem_concat {A : Type} (P : A → Prop) (l : List A) (a : A) :
    (∃ e ∈ l ++ [a], P e) ↔ (∃ e ∈ l, P e) ∨ P a := by
  constructor
  · rintro ⟨e, he, hp⟩
    rcases List.mem_append.mp he with he | he
    · exact Or.inl ⟨e, he, hp⟩
    · rw [List.mem_singleton] at he
      exact Or.inr (he ▸ hp)
  · rintro (⟨e, he, hp⟩ | hp)
    · exact ⟨e, List.mem_append_left _ he, hp⟩
    · exact ⟨a, List.mem_append_right _ (List.mem_singleton_self _), hp⟩

theorem countP_concat {A : Type} (p : A → Bool) (l : List A) (a : A) :
    (l ++ [a]).countP p = l.countP p + if p a then 1 else 0 := by
  rw [List.countP_append]
  by_cases h : p a <;> simp [List.countP_cons, h]

theorem combineStep_inv {f : List String → List String} (hf : SetList f)
    {acc processed : List (String × List String)} (kv : String × List String)
    (h : CombInv acc processed) : CombInv (combineStep f acc kv) (processed ++ [kv]) := by
  obtain ⟨h1, h2, h3, h4⟩ := h
  rcases h0 : dictGet acc (pyLower kv.1) with _ | old
  · have hnotin : pyLower kv.1 ∉ acc.map Prod.fst := (dictGet_eq_none_iff _ _).mp h0
    refine ⟨?_, ?_, ?_, ?_⟩ <;> simp only [combineStep, h0]
    · intro p hp
      rcases List.mem_append.mp hp with hp | hp
      · exact h1 p hp
      · rw [List.mem_singleton] at hp
        rw [hp]
        exact (pyLower_idem kv.1).symm
    · rw [List.map_append, List.nodup_append]
      refine ⟨h2, List.nodup_singleton _, ?_⟩
      intro a ha hb
      simp only [List.map_cons, List.map_nil, List.mem_singleton] at hb
      exact hnotin (hb ▸ ha)
    · intro k
      rw [dictGet_append, exists_mem_concat (fun e : String × List String => pyLower e.1 = k)]
      rcases hk : dictGet acc k with _ | v
      · have hnex : ¬ ∃ e ∈ processed, pyLower e.1 = k := by
          intro hex
          have hs := (h3 k).mpr hex
          rw [hk] at hs
          exact Bool.noConfusion hs
        simp only [dictGet]
        by_cases ht : pyLower kv.1 = k
        · rw [if_pos ht]
          simp [ht]
        · rw [if_neg ht]
          simp [hnex, ht]
      · have hex : ∃ e ∈ processed, pyLower e.1 = k := (h3 k).mp (by rw [hk]; rfl)
        simp [hex]
    · intro k v hkv
      rcases hk : dictGet acc k with _ | w
      · have hkv2 : dictGet [(pyLower kv.1, kv.2)] k = some v := by
          rw [dictGet_append, hk] at hkv
          exact hkv
        simp only [dictGet] at hkv2
        have hnex : ¬ ∃ e ∈ processed, pyLower e.1 = k := by
          intro hex
          have hs := (h3 k).mpr hex
          rw [hk] at hs
          exact Bool.noConfusion hs
        by_cases ht : pyLower kv.1 = k
        · rw [if_pos ht] at hkv2
          obtain rfl : kv.2 = v := Option.some.inj hkv2
          constructor
          · intro p
            rw [exists_mem_concat (fun e : String × List String => pyLower e.1 = k ∧ p ∈ e.2)]
            constructor
            · intro hp
              exact Or.inr ⟨ht, hp⟩
            · rintro (⟨e, he, hek, hp⟩ | ⟨_, hp⟩)
              · exact absurd ⟨e, he, hek⟩ hnex
              · exact hp
          · intro hcnt
            rw [countP_concat] at hcnt
            have hzero : processed.countP (fun e => decide (pyLower e.1 = k)) = 0 := by
              rw [List.countP_eq_zero]
              intro e he
              simp only [decide_eq_true_eq]
              exact fun hek => hnex ⟨e, he, hek⟩
            rw [hzero] at hcnt
            by_cases hta : (decide (pyLower kv.1 = k)) = true <;> simp [hta] at hcnt
        · rw [if_neg ht] at hkv2
          exact absurd hkv2 (by simp)
      · have hkv2 : some w = some v := by
          rw [dictGet_append, hk] at hkv
          exact hkv
        obtain rfl : w = v := Option.some.inj hkv2
        have hw := h4 k w hk
        have hkt : k ≠ pyLower kv.1 := by
          intro hkt
          rw [← hkt] at h0
          rw [h0] at hk
          exact Option.noConfusion hk
        constructor
        · intro p
          rw [exists_mem_concat (fun e : String × List String => pyLower e.1 = k ∧ p ∈ e.2)]
          constructor
          · intro hp
            exact Or.inl ((hw.1 p).mp hp)
          · rintro (hex | ⟨hek, hp⟩)
            · exact (hw.1 p).mpr hex
            · exact absurd hek.symm hkt
        · intro hcnt
          rw [countP_concat] at hcnt
          have hdk : ¬ ((decide (pyLower kv.1 = k)) = true) := by
            simp only [decide_eq_true_eq]
            exact fun hx => hkt hx.symm
          rw [if_neg hdk] at hcnt
          exact hw.2 (by omega)
  · have htin : pyLower kv.1 ∈ acc.map Prod.fst := by
      rw [← dictGet_isSome_iff, h0]
      rfl
    refine ⟨?_, ?_, ?_, ?_⟩ <;> simp only [combineStep, h0]
    · intro p hp
      rcases mem_dictSet hp with hp | hp
      · rw [hp]
        exact (pyLower_idem kv.1).symm
      · exact h1 p hp
    · rw [keys_dictSet_of_mem _ _ _ htin]
      exact h2
    · intro k
      rw [exists_mem_concat (fun e : String × List String => pyLower e.1 = k)]
      by_cases ht : pyLower kv.1 = k
      · rw [← ht, dictGet_dictSet_self]
        simp [ht]
      · rw [dictGet_dictSet_other _ _ _ _ (fun hx => ht hx.symm), h3 k]
        simp [ht]
    · intro k v hkv
      by_cases ht : pyLower kv.1 = k
      · rw [← ht, dictGet_dictSet_self] at hkv
        obtain rfl : f (old ++ kv.2) = v := Option.some.inj hkv
        have hold := h4 (pyLower kv.1) old h0
        constructor
        · intro p
          rw [← ht,
            exists_mem_concat (fun e : String × List String => pyLower e.1 = pyLower kv.1 ∧ p ∈ e.2)]
          rw [(hf _).2 p, List.mem_append, (hold.1 p)]
          constructor
          · rintro (hex | hp)
            · exact Or.inl hex
            · exact Or.inr ⟨rfl, hp⟩
          · rintro (hex | ⟨_, hp⟩)
            · exact Or.inl hex
            · exact Or.inr hp
        · intro _
          exact (hf _).1
      · rw [dictGet_dictSet_other _ _ _ _ (fun hx => ht hx.symm)] at hkv
        have hw := h4 k v hkv
        constructor
        · intro p
          rw [exists_mem_concat (fun e : String × List String => pyLower e.1 = k ∧ p ∈ e.2)]
          constructor
          · intro hp
            exact Or.inl ((hw.1 p).mp hp)
          · rintro (hex | ⟨hek, hp⟩)
            · exact (hw.1 p).mpr hex
            · exact absurd hek ht
        · intro hcnt
          rw [countP_concat] at hcnt
          have hdk : ¬ ((decide (pyLower kv.1 = k)) = true) := by
            simp only [decide_eq_true_eq]
            exact ht
          rw [if_neg hdk] at hcnt
          exact hw.2 (by omega)

theorem combine_tags_foldl_inv {f : List String → List String} (hf : SetList f)
    (d : List (String × List String)) :
    ∀ acc processed, CombInv acc processed →
      CombInv (d.foldl (combineStep f) acc) (processed ++ d) := by
  induction d with
  | nil =>
    intro acc processed h
    simpa using h
  | cons kv rest ih =>
    intro acc processed h
    rw [List.foldl_cons]
    have hstep := combineStep_inv hf kv h
    have hrec := ih _ _ hstep
    simpa [List.append_assoc] using hrec

theorem combine_tags_inv {f : List String → List String} (hf : SetList f)
    (d : List (String × List String)) : CombInv (combine_tags f d) d := by
  have h0 : CombInv [] [] := by
    refine ⟨?_, ?_, ?_, ?_⟩
    · intro p hp
      simp at hp
    · simp
    · intro k
      simp [dictGet]
    · intro k v hkv
      simp [dictGet] at hkv
  have h := combine_tags_foldl_inv hf d [] [] h0
  simpa using h

/-- Input of the tag case-folding scenario: the tags Kids, kids, KIDS
attached to the distinct photo-ids p1, p2, p3. -/
def kidsInput : List (String × List String) :=
  [("Kids", ["p1"]), ("kids", ["p2"]), ("KIDS", ["p3"])]

/-- C5: after the case-folding merge of _combine_tags every key is
lowercase, keys are unique and case-insensitively unique, the list of a
folded key holds exactly the photo-ids of all input tags lowering to it, and
is duplicate-free whenever at least two input tags collapse to the key; on
the scenario input Kids, kids, KIDS with photo-ids p1, p2, p3 the merge has
the single key kids holding exactly the set of the three photo-ids.  All of
this holds for every admissible materialization f of list(set(...)). -/
theorem c5_combine_tags_spec (f : List String → List String) (hf : SetList f)
    (d : List (String × List String)) :
    (∀ p ∈ combine_tags f d, p.1 = pyLower p.1) ∧
    ((combine_tags f d).map Prod.fst).Nodup ∧
    (∀ k1 ∈ (combine_tags f d).map Prod.fst, ∀ k2 ∈ (combine_tags f d).map Prod.fst,
      pyLower k1 = pyLower k2 → k1 = k2) ∧
    (∀ k v, dictGet (combine_tags f d) k = some v →
      ((∀ p, p ∈ v ↔ ∃ e ∈ d, pyLower e.1 = k ∧ p ∈ e.2) ∧
        (2 ≤ d.countP (fun e => decide (pyLower e.1 = k)) → v.Nodup))) ∧
    ((combine_tags f kidsInput).map Prod.fst = ["kids"] ∧
      ∀ v, dictGet (combine_tags f kidsInput) "kids" = some v →
        v.Nodup ∧ ∀ p, p ∈ v ↔ p ∈ ["p1", "p2", "p3"]) := by
  obtain ⟨h1, h2, h3, h4⟩ := combine_tags_inv hf d
  refine ⟨h1, h2, ?_, h4, ?_, ?_⟩
  · intro k1 hk1 k2 hk2 hlow
    rcases List.mem_map.mp hk1 with ⟨p1, hp1, hfst1⟩
    rcases List.mem_map.mp hk2 with ⟨p2, hp2, hfst2⟩
    have e1 := h1 p1 hp1
    have e2 := h1 p2 hp2
    rw [← hfst1, ← hfst2, e1, e2, hfst1, hfst2]
    exact hlow
  · rfl
  · obtain ⟨k1, k2, k3, k4⟩ := combine_tags_inv hf kidsInput
    intro v hv
    have hk := k4 "kids" v hv
    constructor
    · apply hk.2
      decide
    · intro p
      rw [hk.1 p]
      constructor
      · rintro ⟨e, he, hek, hp⟩
        simp only [kidsInput, List.mem_cons, List.not_mem_nil, or_false] at he
        rcases he with rfl | rfl | rfl <;> simp_all
      · intro hp
        simp only [List.mem_cons, List.not_mem_nil, or_false] at hp
        rcases hp with rfl | rfl | rfl
        · exact ⟨("Kids", ["p1"]), by simp [kidsInput], by decide, by simp⟩
        · exact ⟨("kids", ["p2"]), by simp [kidsInput], by decide, by simp⟩
        · exact ⟨("KIDS", ["p3"]), by simp [kidsInput], by decide, by simp⟩

/-- C5 witness: the theorem applied at f = List.dedup (one admissible set
materialization) and the concrete Kids, kids, KIDS input. -/
theorem c5_combine_tags_spec_witness :
    ((combine_tags List.dedup kidsInput).map Prod.fst).Nodup ∧
    ((combine_tags List.dedup kidsInput).map Prod.fst = ["kids"] ∧
      ∀ v, dictGet (combine_tags List.dedup kidsInput) "kids" = some v →
        v.Nodup ∧ ∀ p, p ∈ v ↔ p ∈ ["p1", "p2", "p3"]) := by
  have hf : SetList List.dedup := fun xs => ⟨List.nodup_dedup xs, fun a => List.mem_dedup⟩
  have h := c5_combine_tags_spec List.dedup hf kidsInput
  exact ⟨h.2.1, h.2.2.2.2⟩

theorem combine_tags_fixed_aux (f : List String → List String)
    (l : List (String × List String)) :
    ∀ acc, (∀ p ∈ l, pyLower p.1 = p.1) →
      ((acc.map Prod.fst ++ l.map Prod.fst).Nodup) →
      l.foldl (combineStep f) acc = acc ++ l := by
  induction l with
  | nil =>
    intro acc _ _
    simp
  | cons kv rest ih =>
    intro acc hlow hnd
    rw [List.foldl_cons]
    have hkv : pyLower kv.1 = kv.1 := hlow kv (List.mem_cons_self _ _)
    have hnotin : kv.1 ∉ acc.map Prod.fst := by
      intro hmem
      simp only [List.map_cons] at hnd
      exact (List.nodup_append.mp hnd).2.2 hmem (List.mem_cons_self _ _)
    have hget : dictGet acc (pyLower kv.1) = none := by
      rw [hkv]
      exact (dictGet_eq_none_iff _ _).mpr hnotin
    have hstep : combineStep f acc kv = acc ++ [(pyLower kv.1, kv.2)] := by
      unfold combineStep
      rw [hget]
    have hnd2 : ((acc ++ [kv]).map Prod.fst ++ rest.map Prod.fst).Nodup := by
      simpa [List.append_assoc] using hnd
    have hrec := ih (acc ++ [kv]) (fun p hp => hlow p (List.mem_cons_of_mem _ hp)) hnd2
    rw [hstep, hkv]
    have hpair : ((kv.1, kv.2) : String × List String) = kv := rfl
    rw [hpair, hrec, List.append_assoc]
    rfl

theorem combine_tags_fixed (f : List String → List String)
    (l : List (String × List String)) (hlow : ∀ p ∈ l, p.1 = pyLower p.1)
    (hnd : (l.map Prod.fst).Nodup) : combine_tags f l = l := by
  have h := combine_tags_fixed_aux f l [] (fun p hp => (hlow p hp).symm) (by simpa using hnd)
  simpa [combine_tags] using h

/-- C9: tag-key folding is idempotent; applying _combine_tags to its own
output returns exactly that output (all keys are already lowercase and
unique, so every key takes the fresh-insertion branch and no merge occurs);
this holds for every admissible materialization f of list(set(...)). -/
theorem c9_combine_tags_idempotent (f : List String → List String) (hf : SetList f)
    (d : List (String × List String)) :
    combine_tags f (combine_tags f d) = combine_tags f d := by
  obtain ⟨h1, h2, _, _⟩ := combine_tags_inv hf d
  exact combine_tags_fixed f (combine_tags f d) h1 h2

/-- C9 witness: idempotence at the concrete Kids, kids, KIDS input with the
List.dedup set materialization. -/
theorem c9_combine_tags_idempotent_witness :
    combine_tags List.dedup (combine_tags List.dedup kidsInput) =
      combine_tags List.dedup kidsInput :=
  c9_combine_tags_idempotent List.dedup
    (fun xs => ⟨List.nodup_dedup xs, fun _ => List.mem_dedup⟩) kidsInput

/-- A second admissible materialization of list(set(xs)): enumerate the set
in another order.  Python only guarantees that a set holds each element
once, not an enumeration order. -/
def revDedup (xs : List String) : List String := xs.reverse.dedup

/-- C8: the case-folding merge is not independent of the set enumeration
order: two admissible materializations of list(set(...)) (both
duplicate-free with exactly the elements of their input) give the folded key
kids the photo-id list in two different orders on the same input, so the
order of the merged list depends on the unspecified set iteration order. -/
theorem c8_set_order_dependence :
    SetList List.dedup ∧ SetList revDedup ∧
    combine_tags List.dedup [("Kids", ["p1"]), ("kids", ["p2"])] =
      [("kids", ["p1", "p2"])] ∧
    combine_tags revDedup [("Kids", ["p1"]), ("kids", ["p2"])] =
      [("kids", ["p2", "p1"])] ∧
    combine_tags List.dedup [("Kids", ["p1"]), ("kids", ["p2"])] ≠
      combine_tags revDedup [("Kids", ["p1"]), ("kids", ["p2"])] := by
  refine ⟨fun xs => ⟨List.nodup_dedup xs, fun a => List.mem_dedup⟩,
    fun xs => ⟨List.nodup_dedup _, fun _ => by simp [revDedup]⟩,
    by decide, by decide, by decide⟩

/-- Entry of the sorted tag index built by _sort_by_value_len: the dict
literal with the tag name and its photo-id list. -/
structure TagGroup where
  name : String
  images : List String
deriving DecidableEq, Repr

/-- One iteration of the grouping loop of _sort_by_value_len: the entry is
appended to the bucket keyed by the length of its photo-id list, creating
the bucket on first use. -/
def addToSort (acc : List (Nat × List TagGroup)) (kv : String × List String) :
    List (Nat × List TagGroup) :=
  match dictGet acc kv.2.length with
  | none => acc ++ [(kv.2.length, [⟨kv.1, kv.2⟩])]
  | some gs => dictSet acc kv.2.length (gs ++ [⟨kv.1, kv.2⟩])

/-- Embedding of _sort_by_value_len: group the tag dict by photo-id-list
length, then sort the buckets by key, descending (sorted with reverse=True
in the source). -/
def sort_by_value_len (d : List (String × List String)) : List (Nat × List TagGroup) :=
  List.insertionSort (fun a b : Nat × List TagGroup => b.1 ≤ a.1) (d.foldl addToSort [])

/-- Embedding of the count-index sorting of run():
collections.OrderedDict(reversed(sorted(d.items()))): sort the items by key
ascending (keys are unique, so the tuple comparison never reaches the
values), then reverse. -/
def sortCountIndex (d : List (Nat × List String)) : List (Nat × List String) :=
  (List.insertionSort (fun a b : Nat × List String => a.1 ≤ b.1) d).reverse

theorem addToSort_inv {acc : List (Nat × List TagGroup)} (kv : String × List String)
    (h1 : (acc.map Prod.fst).Nodup)
    (h2 : ∀ p ∈ acc, ∀ g ∈ p.2, g.images.length = p.1) :
    ((addToSort acc kv).map Prod.fst).Nodup ∧
      ∀ p ∈ addToSort acc kv, ∀ g ∈ p.2, g.images.length = p.1 := by
  rcases h0 : dictGet acc kv.2.length with _ | gs
  · constructor
    · simp only [addToSort, h0, List.map_append, List.map_cons, List.map_nil]
      rw [List.nodup_append]
      refine ⟨h1, List.nodup_singleton _, ?_⟩
      intro a ha hb
      rw [List.mem_singleton] at hb
      exact (dictGet_eq_none_iff _ _).mp h0 (hb ▸ ha)
    · simp only [addToSort, h0]
      intro p hp
      rcases List.mem_append.mp hp with hp | hp
      · exact h2 p hp
      · rw [List.mem_singleton] at hp
        subst hp
        intro g hg
        rw [List.mem_singleton] at hg
        subst hg
        rfl
  · have hmem : kv.2.length ∈ acc.map Prod.fst := by
      rw [← dictGet_isSome_iff, h0]
      rfl
    constructor
    · simp only [addToSort, h0]
      rw [keys_dictSet_of_mem _ _ _ hmem]
      exact h1
    · simp only [addToSort, h0]
      intro p hp
      rcases mem_dictSet hp with hp | hp
      · subst hp
        intro g hg
        rcases List.mem_append.mp hg with hg | hg
        · exact h2 _ (dictGet_mem h0) g hg
        · rw [List.mem_singleton] at hg
          subst hg
          rfl
      · exact h2 p hp

theorem groupByLen_inv (d : List (String × List String)) :
    ∀ acc : List (Nat × List TagGroup), (acc.map Prod.fst).Nodup →
      (∀ p ∈ acc, ∀ g ∈ p.2, g.images.length = p.1) →
      (((d.foldl addToSort acc).map Prod.fst).Nodup ∧
        ∀ p ∈ d.foldl addToSort acc, ∀ g ∈ p.2, g.images.length = p.1) := by
  induction d with
  | nil =>
    intro acc h1 h2
    exact ⟨h1, h2⟩
  | cons kv rest ih =>
    intro acc h1 h2
    rw [List.foldl_cons]
    obtain ⟨h1a, h2a⟩ := addToSort_inv kv h1 h2
    exact ih _ h1a h2a

theorem pairwise_gt_of_ge_nodup {l : List Nat} (hge : l.Pairwise (fun a b => b ≤ a))
    (hnd : l.Nodup) : l.Pairwise (fun a b => a > b) := by
  have hand := List.Pairwise.and hge hnd
  exact hand.imp fun hab => lt_of_le_of_ne hab.1 (fun h => hab.2 h.symm)

theorem sort_by_value_len_spec (d : List (String × List String)) :
    ((sort_by_value_len d).map Prod.fst).Pairwise (fun a b => a > b) ∧
      (∀ p ∈ sort_by_value_len d, ∀ g ∈ p.2, g.images.length = p.1) := by
  haveI : IsTotal (Nat × List TagGroup) (fun a b => b.1 ≤ a.1) :=
    ⟨fun a b => le_total b.1 a.1⟩
  haveI : IsTrans (Nat × List TagGroup) (fun a b => b.1 ≤ a.1) :=
    ⟨fun _ _ _ hab hbc => le_trans hbc hab⟩
  obtain ⟨hnd, hbuckets⟩ := groupByLen_inv d []
    (by simp) (by intro p hp; simp at hp)
  have hsorted := List.sorted_insertionSort
    (fun a b : Nat × List TagGroup => b.1 ≤ a.1) (d.foldl addToSort [])
  have hperm := List.perm_insertionSort
    (fun a b : Nat × List TagGroup => b.1 ≤ a.1) (d.foldl addToSort [])
  constructor
  · apply pairwise_gt_of_ge_nodup
    · rw [List.pairwise_map]
      exact hsorted
    · exact ((hperm.map Prod.fst).symm).nodup hnd
  · intro p hp
    exact hbuckets p (hperm.mem_iff.mp hp)

theorem sortCountIndex_spec (c : List (Nat × List String))
    (hnd : (c.map Prod.fst).Nodup) :
    ((sortCountIndex c).map Prod.fst).Pairwise (fun a b => a > b) := by
  haveI : IsTotal (Nat × List String) (fun a b => a.1 ≤ b.1) :=
    ⟨fun a b => le_total a.1 b.1⟩
  haveI : IsTrans (Nat × List String) (fun a b => a.1 ≤ b.1) :=
    ⟨fun _ _ _ hab hbc => le_trans hab hbc⟩
  have hsorted := List.sorted_insertionSort
    (fun a b : Nat × List String => a.1 ≤ b.1) c
  have hperm := List.perm_insertionSort
    (fun a b : Nat × List String => a.1 ≤ b.1) c
  apply pairwise_gt_of_ge_nodup
  · rw [sortCountIndex, List.map_reverse, List.pairwise_reverse, List.pairwise_map]
    exact hsorted
  · rw [sortCountIndex, List.map_reverse, List.nodup_reverse]
    exact ((hperm.map Prod.fst).symm).nodup hnd

/-- C4: the tag index produced by _sort_by_value_len lists its buckets in
strictly descending photo-count order and every tag in a bucket has exactly
that photo-id-list size (so the flattened index is non-increasing in
list size, most-used tags first), while each count index produced by
reversed(sorted(...)) in run() lists its (unique) keys in strictly
descending numeric value; on favorite counts 5 mapped to p1 and 10 mapped to
p2, p3 the leaderboard iterates key 10 before key 5, a different criterion
than the group-size sort of tags. -/
theorem c4_sort_spec :
    (∀ d : List (String × List String),
      ((sort_by_value_len d).map Prod.fst).Pairwise (fun a b => a > b) ∧
      (∀ p ∈ sort_by_value_len d, ∀ g ∈ p.2, g.images.length = p.1) ∧
      ((sort_by_value_len d).map Prod.snd).flatten.Pairwise
        (fun g1 g2 => g2.images.length ≤ g1.images.length)) ∧
    (∀ c : List (Nat × List String), (c.map Prod.fst).Nodup →
      ((sortCountIndex c).map Prod.fst).Pairwise (fun a b => a > b)) ∧
    (sortCountIndex [(5, ["p1"]), (10, ["p2", "p3"])]).map Prod.fst = [10, 5] := by
  refine ⟨fun d => ?_, fun c hnd => sortCountIndex_spec c hnd, by decide⟩
  obtain ⟨hkeys, hbuckets⟩ := sort_by_value_len_spec d
  refine ⟨hkeys, hbuckets, ?_⟩
  rw [List.pairwise_flatten]
  constructor
  · intro l hl
    rcases List.mem_map.mp hl with ⟨p, hp, rfl⟩
    apply List.pairwise_of_forall_mem_list
    intro g1 hg1 g2 hg2
    rw [hbuckets p hp g1 hg1, hbuckets p hp g2 hg2]
  · rw [List.pairwise_map]
    have hpw : (sort_by_value_len d).Pairwise (fun p q => p.1 > q.1) :=
      List.pairwise_map.mp hkeys
    apply hpw.imp_of_mem
    intro p q hpmem hqmem hgt g1 hg1 g2 hg2
    rw [hbuckets p hpmem g1 hg1, hbuckets q hqmem g2 hg2]
    exact le_of_lt hgt

/-- C4 witness: the count-index half of the theorem applied at the concrete
favorites index with counts 5 and 10. -/
theorem c4_sort_spec_witness :
    ((sortCountIndex [(5, ["p1"]), (10, ["p2", "p3"])]).map Prod.fst).Pairwise
      (fun a b => a > b) :=
  c4_sort_spec.2.1 [(5, ["p1"]), (10, ["p2", "p3"])] (by decide)

/-- Page size of the tag-index pages (tags_per_page in _create_tags_html). -/
def tags_per_page : Nat := 200

/-- Page size of the leaderboard pages (types_per_page in
_create_types_html). -/
def types_per_page : Nat := 100

/-- Page size of the album-index pages (albums_per_page in
_create_albums_html). -/
def albums_per_page : Nat := 100

/-- Accumulation loop shared by _create_tags_html and _create_types_html:
each entry increments the counter and joins the current page; when the
counter reaches the page size the page is emitted and the counter and page
reset; a nonempty trailing page is emitted after the loop. -/
def paginateGo {A : Type} (n : Nat) : List A → Nat → List A → List (List A) → List (List A)
  | [], _, curPage, acc => if curPage.length > 0 then acc ++ [curPage] else acc
  | t :: ts, count, curPage, acc =>
    if count + 1 = n then paginateGo n ts 0 [] (acc ++ [curPage ++ [t]])
    else paginateGo n ts (count + 1) (curPage ++ [t]) acc

/-- Pages emitted for a sequence of entries at page size n, as produced by
the loops of _create_tags_html and _create_types_html. -/
def paginate {A : Type} (n : Nat) (entries : List A) : List (List A) :=
  paginateGo n entries 0 [] []

/-- Pages of tag entries emitted by _create_tags_html: the sorted tag index
is flattened bucket by bucket and cut into pages of 200. -/
def create_tags_pages (tags : List (Nat × List TagGroup)) : List (List TagGroup) :=
  paginate tags_per_page (tags.map Prod.snd).flatten

/-- Pages of count entries emitted by _create_types_html: the sorted count
index is cut into pages of 100 pairs of count and photo-id list. -/
def create_types_pages (types : List (Nat × List String)) :
    List (List (Nat × List String)) :=
  paginate types_per_page types

theorem paginateGo_acc {A : Type} (n : Nat) (l : List A) :
    ∀ c p a, paginateGo n l c p a = a ++ paginateGo n l c p [] := by
  induction l with
  | nil =>
    intro c p a
    by_cases h : p.length > 0 <;> simp [paginateGo, h]
  | cons t ts ih =>
    intro c p a
    simp only [paginateGo]
    by_cases h : c + 1 = n
    · rw [if_pos h, if_pos h, ih _ _ (a ++ [p ++ [t]]), ih _ _ ([] ++ [p ++ [t]])]
      simp
    · rw [if_neg h, if_neg h, ih _ _ a]

theorem paginateGo_flatten {A : Type} (n : Nat) (l : List A) :
    ∀ c p a, (paginateGo n l c p a).flatten = a.flatten ++ p ++ l := by
  induction l with
  | nil =>
    intro c p a
    by_cases h : p.length > 0
    · simp [paginateGo, h]
    · have hp : p = [] := List.length_eq_zero.mp (by omega)
      simp [paginateGo, h, hp]
  | cons t ts ih =>
    intro c p a
    simp only [paginateGo]
    by_cases h : c + 1 = n
    · rw [if_pos h, ih]
      simp
    · rw [if_neg h, ih]
      simp

theorem paginateGo_length {A : Type} (n : Nat) (hn : 0 < n) (l : List A) :
    ∀ c p (a : List (List A)), c = p.length → c < n →
      (paginateGo n l c p a).length = a.length + pyCeilDiv (p.length + l.length) n := by
  induction l with
  | nil =>
    intro c p a hc hlt
    by_cases h : p.length > 0
    · simp only [paginateGo, h, if_pos, List.length_append, List.length_cons,
        List.length_nil]
      have hone : pyCeilDiv (p.length + 0) n = 1 := by
        rw [pyCeilDiv]
        apply Nat.div_eq_of_lt_le <;> omega
      rw [hone]
    · have hp0 : p.length = 0 := by omega
      simp only [paginateGo, h, if_false, List.length_nil]
      have hzero : pyCeilDiv (p.length + 0) n = 0 := by
        rw [pyCeilDiv, hp0]
        apply Nat.div_eq_of_lt
        omega
      rw [hzero]
      omega
  | cons t ts ih =>
    intro c p a hc hlt
    simp only [paginateGo]
    by_cases h : c + 1 = n
    · rw [if_pos h]
      rw [ih 0 [] (a ++ [p ++ [t]]) rfl hn]
      simp only [List.length_append, List.length_nil, List.length_cons]
      rw [pyCeilDiv, pyCeilDiv]
      have harg : p.length + (ts.length + 1) + n - 1 = (0 + ts.length + n - 1) + n := by
        omega
      rw [harg, Nat.add_div_right _ hn]
      omega
    · rw [if_neg h]
      rw [ih (c + 1) (p ++ [t]) a (by simp [hc]) (by omega)]
      have harg : (p ++ [t]).length + ts.length = p.length + (t :: ts).length := by
        simp
        omega
      rw [harg]

theorem paginateGo_pages {A : Type} (n : Nat) (l : List A) :
    ∀ c p, c = p.length → c < n →
      (∀ pg ∈ (paginateGo n l c p []).dropLast, pg.length = n) ∧
      (∀ pg ∈ paginateGo n l c p [], pg ≠ [] ∧ pg.length ≤ n) := by
  induction l with
  | nil =>
    intro c p hc hlt
    by_cases h : p.length > 0
    · simp only [paginateGo, h, if_pos, List.nil_append]
      constructor
      · intro pg hpg
        simp [List.dropLast] at hpg
      · intro pg hpg
        rw [List.mem_singleton] at hpg
        subst hpg
        refine ⟨?_, by omega⟩
        intro he
        rw [he] at h
        simp at h
    · simp [paginateGo, h]
  | cons t ts ih =>
    intro c p hc hlt
    simp only [paginateGo]
    by_cases h : c + 1 = n
    · rw [if_pos h, paginateGo_acc]
      have hrec := ih 0 [] rfl (by omega)
      have hlen : (p ++ [t]).length = n := by
        simp
        omega
      constructor
      · intro pg hpg
        rcases hrest : paginateGo n ts 0 [] [] with _ | ⟨q, qs⟩
        · rw [hrest] at hpg
          simp [List.dropLast] at hpg
        · rw [hrest] at hpg
          have hconseq : ([] ++ [p ++ [t]]) ++ q :: qs = (p ++ [t]) :: q :: qs := by
            simp
          rw [hconseq, List.dropLast_cons_of_ne_nil (by simp)] at hpg
          rcases List.mem_cons.mp hpg with hpg | hpg
          · rw [hpg]
            exact hlen
          · have := hrec.1
            rw [hrest] at this
            exact this pg hpg
      · intro pg hpg
        rcases List.mem_append.mp hpg with hpg | hpg
        · simp only [List.nil_append, List.mem_singleton] at hpg
          subst hpg
          refine ⟨?_, by omega⟩
          intro he
          rw [he] at hlen
          simp at hlen
          omega
        · exact hrec.2 pg hpg
    · rw [if_neg h]
      exact ih (c + 1) (p ++ [t]) (by simp [hc]) (by omega)

set_option maxRecDepth 8000 in
/-- C3: the pagination loop shared by _create_tags_html (200 entries per
page) and _create_types_html (100 entries per page) fills pages strictly in
input order with no entry split across pages (concatenating the pages
reproduces the input exactly), emits exactly ceil(L/N) pages whose entry
counts sum to L, every page before the last holds exactly N entries, every
page is nonempty with at most N entries (so a trailing partial page appears
exactly when the remainder is nonempty), and 250 tag entries at page size
200 yield exactly the page sizes 200 and 50. -/
theorem c3_paginate_spec {A : Type} (n : Nat) (l : List A) (hn : 0 < n) :
    (paginate n l).flatten = l ∧
    ((paginate n l).map List.length).sum = l.length ∧
    (paginate n l).length = pyCeilDiv l.length n ∧
    (∀ pg ∈ (paginate n l).dropLast, pg.length = n) ∧
    (∀ pg ∈ paginate n l, pg ≠ [] ∧ pg.length ≤ n) ∧
    tags_per_page = 200 ∧ types_per_page = 100 ∧
    (create_tags_pages [(1, List.replicate 250 (⟨"t", ["p"]⟩ : TagGroup))]).map
      List.length = [200, 50] := by
  have hflat : (paginate n l).flatten = l := by
    rw [paginate, paginateGo_flatten]
    simp
  have hlen : (paginate n l).length = pyCeilDiv l.length n := by
    rw [paginate, paginateGo_length n hn l 0 [] [] rfl hn]
    simp
  have hpages := paginateGo_pages n l 0 [] rfl hn
  refine ⟨hflat, ?_, hlen, hpages.1, hpages.2, rfl, rfl, by decide⟩
  rw [← List.length_flatten, hflat]

set_option maxRecDepth 8000 in
/-- C3 witness: the pagination properties at page size 200 on 250 entries,
matching the 250-tags scenario of the claim. -/
theorem c3_paginate_spec_witness :
    (paginate 200 (List.range 250)).flatten = List.range 250 ∧
    (paginate 200 (List.range 250)).length = pyCeilDiv 250 200 := by
  have h := c3_paginate_spec 200 (List.range 250) (by decide)
  exact ⟨h.1, by rw [h.2.2.1]; rfl⟩

/-- Number of tag-index pages computed once up front in _create_tags_html:
int(math.ceil(num_tags / tags_per_page)). -/
def num_pages_tags (total : Nat) : Nat := pyCeilDiv total tags_per_page

/-- Number of leaderboard pages computed once up front in
_create_types_html. -/
def num_pages_types (total : Nat) : Nat := pyCeilDiv total types_per_page

/-- Page numbers linked from the navigation block of every tag-index page
(_create_tags_page): range(1, num_pages). -/
def tags_page_nav (num_pages : Nat) : List Nat := pyRange 1 num_pages

/-- Page numbers linked from the navigation block of every leaderboard page
(_create_types_page): x + 1 for x in range(0, num_pages). -/
def types_page_nav (num_pages : Nat) : List Nat :=
  (pyRange 0 num_pages).map (fun x => x + 1)

/-- C6: totalPages is computed once before pagination and passed unchanged
to every page, and numbering starts at 1, but the navigation block of the
tag-index pages is built from range(1, num_pages) and therefore links only
pages 1 to totalPages - 1, omitting the final page (and holding no link at
all when there is a single page), unlike the leaderboard pages whose
navigation links every page from 1 to totalPages: with 250 tags there are
2 tag-index pages and the tag navigation links only page 1. -/
theorem c6_tags_nav_missing_last :
    num_pages_tags 250 = 2 ∧
    tags_page_nav 2 = [1] ∧
    2 ∉ tags_page_nav 2 ∧
    tags_page_nav 1 = [] ∧
    types_page_nav 2 = [1, 2] ∧
    num_pages_types 250 = 3 ∧
    types_page_nav 3 = [1, 2, 3] := by
  refine ⟨by decide, by decide, by decide, by decide, by decide, by decide, by decide⟩

/-- Error message logged by _get_images_table when a photo-id misses from
the image map. -/
def thumbErr (id : String) : String := "Could not find " ++ id ++ " in image map"

/-- One grid cell of the 5-column table of _get_images_table (whitespace of
the source template elided). -/
def cellHtml (id file : String) : String :=
  "<td><a href=../images/" ++ id ++ ".html><img src=../../thumbnails/" ++ file ++
    "></a><a href=../images/" ++ id ++ ".html>" ++ id ++ "</a><br><br></td>"

/-- Loop of _get_images_table: for each photo-id, a row opener is appended
when the counter is 0, then the cell is formatted from image_map[image_id];
a missing id raises a KeyError that is caught, logged and skips the rest of
the iteration (the cell is dropped and the counter is not advanced); after a
successful cell the row is closed at counter 4 and the counter advances. -/
def get_images_table_go (m : List (String × String)) :
    List String → String → Nat → List String → String × List String
  | [], table, _, warns => (table ++ "</table>", warns)
  | id :: ids, table, count, warns =>
    let table1 := if count = 0 then table ++ "<tr>" else table
    match dictGet m id with
    | none => get_images_table_go m ids table1 count (warns ++ [thumbErr id])
    | some file =>
      let table2 := table1 ++ cellHtml id file
      if count = 4 then get_images_table_go m ids (table2 ++ "</tr>") 1 warns
      else get_images_table_go m ids table2 (count + 1) warns

/-- Embedding of _get_images_table: the rendered table plus the logged
missing-asset errors, starting with counter 1 as in the source. -/
def get_images_table (image_ids : List String) (m : List (String × String)) :
    String × List String :=
  get_images_table_go m image_ids "<table cellpadding=10 border=0>" 1 []

/-- Embedding of image_map.get(x) as interpolated by the stacked layout of
_create_tag_html: Python string-formats a missing key (None) as None. -/
def pyGetStr (m : List (String × String)) (k : String) : String :=
  match dictGet m k with
  | some v => v
  | none => "None"

/-- One stacked image row of _create_tag_html for a tag with at most 30
photos. -/
def stackedImage (m : List (String × String)) (x : String) : String :=
  "<a href=../images/" ++ x ++ ".html><img class=center-fit src=../../images/" ++
    pyGetStr m x ++ "></a>"

/-- Images block of _create_tag_html together with the logged missing-asset
warnings: a tag with more than 30 photos renders the 5-column grid of
_get_images_table, any other tag renders the stacked layout through
image_map.get, which never logs. -/
def tag_images_html (images : List String) (m : List (String × String)) :
    String × List String :=
  if images.length > 30 then get_images_table images m
  else (String.intercalate "<br><br>" (images.map (stackedImage m)), [])

theorem get_images_table_go_warns (m : List (String × String)) (ids : List String) :
    ∀ table count warns,
      (get_images_table_go m ids table count warns).2 =
        warns ++ (ids.filter (fun i => (dictGet m i).isNone)).map thumbErr := by
  induction ids with
  | nil =>
    intro t c w
    simp [get_images_table_go]
  | cons i is ih =>
    intro t c w
    simp only [get_images_table_go]
    split
    · rename_i hd
      rw [ih]
      simp [List.filter_cons, hd]
    · rename_i file hd
      split
      · rw [ih]
        simp [List.filter_cons, hd]
      · rw [ih]
        simp [List.filter_cons, hd]

/-- C7 counterexample: photo-id p1 appears in a derived index (a tag whose
only photo it is), is absent from the image map, and the rendering of that
tag page (stacked layout, 30 photos or fewer) emits no missing-asset warning
at all rather than exactly one; the image is rendered with the None
placeholder src. -/
theorem c7_counterexample :
    dictGet ([] : List (String × String)) "p1" = none ∧
    (tag_images_html ["p1"] []).2 = [] ∧
    pyGetStr [] "p1" = "None" := by
  refine ⟨rfl, by decide, rfl⟩

/-- C7 (amended): a photo-id missing from the image map never aborts
rendering: in the grid layout used for more than 30 photos every missing
occurrence produces exactly one logged warning and its cell is dropped (the
warnings of a table are exactly its missing occurrences in order), while in
the stacked layout used for 30 photos or fewer no warning is produced and
the missing id degrades to the None placeholder. -/
theorem c7_missing_asset_spec :
    (∀ (ids : List String) (m : List (String × String)),
      (get_images_table ids m).2 =
        (ids.filter (fun i => (dictGet m i).isNone)).map thumbErr) ∧
    (∀ (images : List String) (m : List (String × String)),
      images.length ≤ 30 → (tag_images_html images m).2 = []) ∧
    (∀ (m : List (String × String)) (x : String),
      dictGet m x = none → pyGetStr m x = "None") := by
  refine ⟨fun ids m => ?_, fun images m h => ?_, fun m x h => ?_⟩
  · rw [get_images_table, get_images_table_go_warns]
    simp
  · rw [tag_images_html, if_neg (by omega)]
  · rw [pyGetStr, h]

/-- C7 witness: the amended theorem applied at the one-photo tag p1 with an
empty image map. -/
theorem c7_missing_asset_spec_witness :
    (tag_images_html ["p1"] []).2 = [] ∧ pyGetStr [] "p1" = "None" :=
  ⟨c7_missing_asset_spec.2.1 ["p1"] [] (by decide),
    c7_missing_asset_spec.2.2 [] "p1" (by decide)⟩

/-- Log message of _write_html when the target exists and overwrite is
disabled. -/
def skipMsg (filePath : String) : String := filePath ++ " already exists, skipping ..."

/-- Log message of _write_html before a write is attempted. -/
def writeMsg (filePath : String) : String := "Writing " ++ filePath ++ " ..."

/-- Log message of the except clause of _write_html. -/
def writeErrMsg (filePath e : String) : String :=
  "Could not write " ++ filePath ++ ": " ++ e

/-- Outcome of the guarded body of _write_html after the existence check:
open(file_path, "w") followed by fh.write(html).  Opening with mode w
truncates the target before any writing happens, so an exception raised by
the write call leaves a prefix of html at the path; an exception raised by
open itself leaves the target untouched. -/
inductive WriteAttempt where
  | ok : WriteAttempt
  | openFailed : String → WriteAttempt
  | writeFailed : String → Nat → WriteAttempt

/-- Embedding of _write_html over a filesystem of path-content pairs.  The
attempted file write is a parameter: ok is a successful write of html at the
path, openFailed e an exception raised by open (target untouched),
writeFailed e k an exception raised by fh.write after k characters reached
the already-truncated target.  The source wraps the whole body in try/except
and only logs a caught exception, so the embedding is total: a failed write
returns normally with the logged error, with whatever state the direct
write left at the target. -/
def write_html (fs : List (String × String)) (html filePath : String) (overwrite : Bool)
    (attempt : WriteAttempt) : List (String × String) × List String :=
  if (dictGet fs filePath).isSome && !overwrite then (fs, [skipMsg filePath])
  else
    match attempt with
    | WriteAttempt.ok => (dictSet fs filePath html, [writeMsg filePath])
    | WriteAttempt.openFailed e => (fs, [writeMsg filePath, writeErrMsg filePath e])
    | WriteAttempt.writeFailed e k =>
        (dictSet fs filePath (String.mk (html.data.take k)),
          [writeMsg filePath, writeErrMsg filePath e])

/-- C10: when overwrite is disabled and the target file exists, _write_html
returns without writing: the filesystem, and in particular the content at
the target path, is unchanged and only the skip is logged (the early return
happens before open, whatever the write would have done); and an exception
raised while writing any page is caught and logged inside _write_html, so
the call returns normally with the error appended to the log and never
propagates the failure to the caller: an exception from open leaves the
target untouched, an exception from the write itself leaves the truncated
prefix the direct write produced. -/
theorem c10_write_html_spec :
    (∀ (fs : List (String × String)) (html filePath : String)
        (attempt : WriteAttempt),
      (dictGet fs filePath).isSome = true →
        write_html fs html filePath false attempt = (fs, [skipMsg filePath])) ∧
    (∀ (fs : List (String × String)) (html filePath : String) (overwrite : Bool)
        (e : String),
      write_html fs html filePath overwrite (WriteAttempt.openFailed e) =
          (fs, [skipMsg filePath]) ∨
        write_html fs html filePath overwrite (WriteAttempt.openFailed e) =
          (fs, [writeMsg filePath, writeErrMsg filePath e])) ∧
    (∀ (fs : List (String × String)) (html filePath : String) (overwrite : Bool)
        (e : String) (k : Nat),
      write_html fs html filePath overwrite (WriteAttempt.writeFailed e k) =
          (fs, [skipMsg filePath]) ∨
        write_html fs html filePath overwrite (WriteAttempt.writeFailed e k) =
          (dictSet fs filePath (String.mk (html.data.take k)),
            [writeMsg filePath, writeErrMsg filePath e])) := by
  refine ⟨?_, ?_, ?_⟩
  · intro fs html filePath attempt h
    rw [write_html.eq_def, if_pos (by rw [h]; rfl)]
  · intro fs html filePath overwrite e
    rw [write_html.eq_def]
    by_cases h : ((dictGet fs filePath).isSome && !overwrite) = true
    · rw [if_pos h]
      exact Or.inl rfl
    · rw [if_neg h]
      exact Or.inr rfl
  · intro fs html filePath overwrite e k
    rw [write_html.eq_def]
    by_cases h : ((dictGet fs filePath).isSome && !overwrite) = true
    · rw [if_pos h]
      exact Or.inl rfl
    · rw [if_neg h]
      exact Or.inr rfl

/-- C10 witness: the skip branch of the theorem at a concrete filesystem
holding the target file, with a write attempt that would have failed
mid-write. -/
theorem c10_write_html_spec_witness :
    write_html [("a.html", "old")] "new" "a.html" false
        (WriteAttempt.writeFailed "IOError" 1) =
      ([("a.html", "old")], [skipMsg "a.html"]) :=
  c10_write_html_spec.1 [("a.html", "old")] "new" "a.html"
    (WriteAttempt.writeFailed "IOError" 1) (by decide)
